import Mathlib

/-
Verification development for the retrieval-augmented chat pipeline of this
repository.  Python text is modelled as a list of characters; a Python slice
text[start : start + n] with 0 <= start is (text.drop start).take n.  Machine
floats only ever appear as exactly representable small constants (the constant
score 1.0 of the stub index), so scores are modelled as integers.
-/

set_option maxRecDepth 40000

namespace AIMaster

/-- Loop of FileHandler.split_text: while start < len(text), emit
text[start : start + chunk_size] and advance start by chunk_size - overlap.
The loop is given a structural iteration bound; when overlap < chunk_size the
start offset grows by at least one per iteration, so a bound of len(text)
iterations is exact: the bound runs out only when start has already reached
len(text) and the loop would stop anyway (splitTextGo_length and
splitTextGo_eq_map_range below hold for every adequate bound). -/
def splitTextGo (text : List Char) (chunkSize overlap : Nat) :
    Nat → Nat → List (List Char)
  | _, 0 => []
  | start, fuel + 1 =>
    if start < text.length then
      ((text.drop start).take chunkSize)
        :: splitTextGo text chunkSize overlap (start + (chunkSize - overlap)) fuel
    else
      []

/-- FileHandler.split_text: an empty text yields no chunks, otherwise the
sliding-window loop starting at offset 0.  The Python code performs no
parameter validation; for overlap >= chunk_size its while loop does not
terminate (modelled by splitTextFuel below), so this total function is only
meaningful for overlap < chunk_size and returns [] otherwise. -/
def splitText (text : List Char) (chunkSize overlap : Nat) : List (List Char) :=
  if text.isEmpty then []
  else if overlap < chunkSize then splitTextGo text chunkSize overlap 0 text.length
  else []

/-- Fuel-indexed model of the split_text while loop exactly as written, with no
termination assumption: none means the loop is still running after the given
number of iterations.  The stride chunk_size - overlap is natural subtraction,
which agrees with the Python integer stride whenever overlap <= chunk_size. -/
def splitTextFuel (text : List Char) (chunkSize overlap start fuel : Nat) :
    Option (List (List Char)) :=
  match fuel with
  | 0 => none
  | f + 1 =>
    if start < text.length then
      (splitTextFuel text chunkSize overlap (start + (chunkSize - overlap)) f).map
        (fun rest => ((text.drop start).take chunkSize) :: rest)
    else
      some []

/-- One entry of the in-memory vector index of src/services/vector_service.py:
the dict stored per chunk, with the metadata fields written by
RAGService.process_document (document_name, chunk_index, user_id). -/
structure VChunk where
  chunk_id : String
  content : List Char
  embedding : List Int
  doc_name : String
  chunk_index : Nat
  meta_user : String
deriving Repr, DecidableEq

/-- VectorService.add_chunk of src/services/vector_service.py:
self.index.setdefault(document_id, []).append(record).  The index is a dict
from document id to the list of its chunk records, modelled as an association
list with unique keys in insertion order. -/
def vsAddChunk (idx : List (String × List VChunk)) (did : String) (c : VChunk) :
    List (String × List VChunk) :=
  match idx with
  | [] => [(did, [c])]
  | (k, v) :: rest =>
    if k = did then (k, v ++ [c]) :: rest else (k, v) :: vsAddChunk rest did c

/-- self.index.get(document_id, []): the record list of a document, or []. -/
def vsGet (idx : List (String × List VChunk)) (did : String) : List VChunk :=
  match idx with
  | [] => []
  | (k, v) :: rest => if k = did then v else vsGet rest did

/-- VectorService.delete_document of src/services/vector_service.py:
del self.index[document_id] when the key is present. -/
def vsDelete (idx : List (String × List VChunk)) (did : String) :
    List (String × List VChunk) :=
  idx.filter (fun p => !(p.1 == did))

/-- One result dict of the stub VectorService.search (the float score 1.0 is
the integer 1; the metadata field is dropped, no claim mentions it). -/
structure SearchResult where
  document_id : String
  chunk_id : String
  content : List Char
  score : Int
deriving Repr, DecidableEq

/-- VectorService.search of src/services/vector_service.py: for each document
id in the filter (or every indexed document when the filter is None), take the
first limit records of that document and emit them with constant score 1.0.
The query text is ignored by the stub. -/
def vsSearch (idx : List (String × List VChunk)) (_q : List Char)
    (documentIds : Option (List String)) (limit : Nat) : List SearchResult :=
  let docs : List String := match documentIds with
    | some l => l
    | none => idx.map (fun p => p.1)
  docs.flatMap (fun did =>
    ((vsGet idx did).take limit).map
      (fun c => ⟨did, c.chunk_id, c.content, 1⟩))

/-- One row of the documents table.  Timestamp columns are modelled as set/not
set flags; processed is the 0/1 processed column. -/
structure DocRow where
  id : String
  user_id : String
  filename : String
  filepath : String
  processing_started : Bool
  processed : Bool
  chunks_count : Nat
  processed_at : Bool
  processing_error : Option String
deriving Repr, DecidableEq

/-- One row of the document_chunks table. -/
structure ChunkRow where
  id : String
  document_id : String
  content : List Char
  chunk_index : Nat
deriving Repr, DecidableEq

/-- The mutable state touched by RAGService: the documents and document_chunks
tables and the in-memory vector index. -/
structure RagState where
  documents : List DocRow
  document_chunks : List ChunkRow
  vindex : List (String × List VChunk)
deriving Repr, DecidableEq

/-- UPDATE documents SET ... WHERE id = ?: applies f to every row whose id
matches (the updates in process_document are keyed on id only, not user_id). -/
def updateDoc (docs : List DocRow) (did : String) (f : DocRow → DocRow) : List DocRow :=
  docs.map (fun d => if d.id == did then f d else d)

/-- fetch_one for SELECT * FROM documents WHERE id = ? AND user_id = ?. -/
def findDoc (docs : List DocRow) (did uid : String) : Option DocRow :=
  docs.find? (fun d => d.id == did && d.user_id == uid)

/-- The per-chunk loop of RAGService.process_document: embed the chunk (the
external embedding provider is the parameter embed and may fail), add it to
the vector index, then insert the document_chunks row.  On the first embedding
failure the loop stops with the error; everything inserted before the failure
stays in place.  genId supplies the uuid4 chunk ids. -/
def ingestChunks (embed : List Char → Except String (List Int)) (genId : Nat → String)
    (did uid fname : String) :
    List (List Char) → Nat → RagState → RagState × Option String
  | [], _, s => (s, none)
  | c :: rest, i, s =>
    match embed c with
    | .error e => (s, some e)
    | .ok emb =>
      let cid := genId i
      let s1 : RagState :=
        { s with vindex := vsAddChunk s.vindex did ⟨cid, c, emb, fname, i, uid⟩ }
      let s2 : RagState :=
        { s1 with document_chunks := s1.document_chunks ++ [⟨cid, did, c, i⟩] }
      ingestChunks embed genId did uid fname rest (i + 1) s2

/-- RAGService.process_document: look the document up by id and owner, mark
processing_started, extract the text (files maps a filepath to its extracted
text; extract_text returns the empty text for a missing file), split it with
the default chunk_size 1000 and overlap 200, run the ingestion loop, then on
success set processed, chunks_count and processed_at; any failure (including a
missing document) is absorbed by the except branch, which only records
processing_error on the rows matching the id. -/
def processDocument (embed : List Char → Except String (List Int))
    (files : String → List Char) (genId : Nat → String)
    (did uid : String) (s : RagState) : RagState :=
  match findDoc s.documents did uid with
  | none =>
    let docs := updateDoc s.documents did
      (fun d => { d with processing_error := some "Document not found" })
    { s with documents := docs }
  | some doc =>
    let started := updateDoc s.documents did
      (fun d => { d with processing_started := true })
    let s1 : RagState := { s with documents := started }
    let chunks := splitText (files doc.filepath) 1000 200
    match ingestChunks embed genId did uid doc.filename chunks 0 s1 with
    | (s2, some e) =>
      let docs := updateDoc s2.documents did
        (fun d => { d with processing_error := some e })
      { s2 with documents := docs }
    | (s2, none) =>
      let docs := updateDoc s2.documents did
        (fun d => { d with processed := true, chunks_count := chunks.length,
                           processed_at := true })
      { s2 with documents := docs }

/-- RAGService.delete_document: first remove the document from the vector
index, then delete its chunk rows, then delete the documents row with
DELETE ... WHERE id = ? AND user_id = ?; the returned Bool is
result.rowcount > 0 of that last statement. -/
def deleteDocument (did uid : String) (s : RagState) : RagState × Bool :=
  let v := vsDelete s.vindex did
  let ch := s.document_chunks.filter (fun c => !(c.document_id == did))
  let deleted := s.documents.filter (fun d => d.id == did && d.user_id == uid)
  let docs := s.documents.filter (fun d => !(d.id == did && d.user_id == uid))
  (⟨docs, ch, v⟩, !deleted.isEmpty)

/-- RAGService.search_documents: collect the ids of the caller's processed
documents and pass them (possibly the empty list) as the filter of the vector
search. -/
def searchDocuments (q : List Char) (uid : String) (limit : Nat) (s : RagState) :
    List SearchResult :=
  let ids := (s.documents.filter (fun d => d.user_id == uid && d.processed)).map
    (fun d => d.id)
  vsSearch s.vindex q (some ids) limit

/-- Number of vector-index entries the index holds for a document. -/
def vcount (s : RagState) (did : String) : Nat := (vsGet s.vindex did).length

/-- The document_chunks rows of one document. -/
def chunkRowsFor (s : RagState) (did : String) : List ChunkRow :=
  s.document_chunks.filter (fun c => c.document_id == did)

/-- One record of the chroma collection used by the alternative VectorService
of deepseek_python_20251231_fb8405.py (metadatas document_id, document_name
plus the stored document text and embedding). -/
structure CEntry where
  chunk_id : String
  document_id : String
  document_name : String
  content : List Char
  embedding : List Int
deriving Repr, DecidableEq

/-- Integer dot product of two vectors. -/
def dotInt : List Int → List Int → Int
  | a :: as1, b :: bs => a * b + dotInt as1 bs
  | _, _ => 0

/-- Modelled from the spec: the distance of the external chroma collection
(cosine space).  The claims settled against this model depend only on the
filter handling of the repository code, never on the metric itself, so a fixed
integer stand-in 1 - dot is used. -/
def cdist (a b : List Int) : Int := 1 - dotInt a b

/-- Stable insertion of an entry into a list ascending by key. -/
def insertAsc (key : CEntry → Int) (x : CEntry) : List CEntry → List CEntry
  | [] => [x]
  | y :: ys => if key x < key y then x :: y :: ys else y :: insertAsc key x ys

/-- Stable insertion sort ascending by key. -/
def sortAsc (key : CEntry → Int) : List CEntry → List CEntry
  | [] => []
  | x :: xs => insertAsc key x (sortAsc key xs)

/-- Modelled from the spec: collection.query of the external chroma library,
which the Durable Vector Store capability stands for: restrict the collection
to the where-filter on metadata document_id when one is given, rank by
distance ascending, return the first n. -/
def chromaQuery (coll : List CEntry) (qe : List Int) (n : Nat)
    (whereDocs : Option (List String)) : List CEntry :=
  let cands := match whereDocs with
    | some l => coll.filter (fun e => l.contains e.document_id)
    | none => coll
  (sortAsc (fun e => cdist qe e.embedding) cands).take n

/-- One formatted result of fb8405 VectorService.search. -/
structure FbResult where
  chunk_id : String
  document_id : String
  document_name : String
  content : List Char
  score : Int
deriving Repr, DecidableEq

/-- VectorService.search of deepseek_python_20251231_fb8405.py: embed the
query, then build the where-filter with the Python truthiness test
if document_ids:, which treats None and the empty list identically (no filter
at all), query the collection and report score = 1 - distance. -/
def fbSearch (coll : List CEntry) (embedQ : List Char → List Int) (q : List Char)
    (documentIds : Option (List String)) (limit : Nat) : List FbResult :=
  let qe := embedQ q
  let whereDocs : Option (List String) :=
    match documentIds with
    | some l => if l.isEmpty then none else some l
    | none => none
  (chromaQuery coll qe limit whereDocs).map
    (fun e => ⟨e.chunk_id, e.document_id, e.document_name, e.content,
               1 - cdist qe e.embedding⟩)

/-- One chat message, as passed to the completion services. -/
structure ChatMsg where
  role : String
  content : String
deriving Repr, DecidableEq

/-- AIService._format_messages of deepseek_python_20251231_c27715.py: known
roles are rendered with their prefixes, unknown roles are skipped, the lines
are joined with newlines and the Assistant: cue is appended. -/
def formatMessages (messages : List ChatMsg) : String :=
  String.intercalate "\n" (messages.filterMap (fun m =>
    if m.role == "system" then some ("System: " ++ m.content)
    else if m.role == "user" then some ("User: " ++ m.content)
    else if m.role == "assistant" then some ("Assistant: " ++ m.content)
    else none)) ++ "\nAssistant:"

/-- One server-sent frame of the streaming completion.  In the source a delta
frame is the string data: json of one delta and the terminator is the literal
data: [DONE] frame; the json round trip is injective on the delta content, so
the frames are modelled by their parsed shape. -/
inductive SSEFrame where
  | delta (content : String)
  | done
deriving Repr, DecidableEq

/-- AIService.stream_chat_completion of deepseek_python_20251231_c27715.py:
format the messages once, emit one delta frame per backend chunk, then the
terminator.  streamGen is the external Model Backend stream_generate. -/
def streamChatCompletion (streamGen : String → List String) (messages : List ChatMsg) :
    List SSEFrame :=
  ((streamGen (formatMessages messages)).map SSEFrame.delta) ++ [SSEFrame.done]

/-- The assistant message of the completion envelope returned by
AIService.chat_completion (id, created, model and usage fields are omitted,
no claim mentions them). -/
structure CompletionEnvelope where
  role : String
  content : String
  finish_reason : String
deriving Repr, DecidableEq

/-- AIService.chat_completion of deepseek_python_20251231_c27715.py: format
the messages, call the external Model Backend generate, wrap the result as the
assistant message.  gen is the backend generate. -/
def chatCompletion (gen : String → String) (messages : List ChatMsg) : CompletionEnvelope :=
  ⟨"assistant", gen (formatMessages messages), "stop"⟩

/-- Concatenation of a list of text deltas in order. -/
def concatStrings (l : List String) : String :=
  l.foldr (fun a b => a ++ b) ""

/-- The accumulation of ChatService.stream_completion of
deepseek_python_20251231_7a28c0.py: every delta frame appends its content to
full_response; the [DONE] frame contributes nothing (its json parse fails and
the except branch swallows it). -/
def accumulateStream (frames : List SSEFrame) : String :=
  frames.foldl (fun acc f =>
    match f with
    | .delta c => acc ++ c
    | .done => acc) ""

/-- One row of the chat_history table (model_used and tokens_used omitted, no
claim mentions them); created_at is an abstract timestamp. -/
structure ChatRow where
  user_id : String
  conversation_id : String
  role : String
  message : String
  created_at : Nat
deriving Repr, DecidableEq

/-- One message dict of a conversation returned by ChatService.get_history. -/
structure HistMsg where
  role : String
  content : String
  timestamp : Nat
deriving Repr, DecidableEq

/-- One conversation group returned by ChatService.get_history. -/
structure Conversation where
  conversation_id : String
  messages : List HistMsg
  created_at : Nat
deriving Repr, DecidableEq

/-- Row order of ORDER BY created_at DESC: later timestamps first. -/
def histGE (a b : ChatRow) : Prop := b.created_at ≤ a.created_at

instance : DecidableRel histGE := fun _ b => Nat.decLe b.created_at _

instance : IsTotal ChatRow histGE :=
  ⟨fun a b => le_total b.created_at a.created_at⟩

instance : IsTrans ChatRow histGE :=
  ⟨fun _ _ _ h1 h2 => le_trans h2 h1⟩

/-- fetch_all for SELECT * FROM chat_history WHERE user_id = ? ORDER BY
created_at DESC LIMIT ? OFFSET ?.  SQL leaves the order of ties unspecified;
the model fixes a stable insertion sort, which is one admissible order. -/
def fetchHistoryRows (db : List ChatRow) (uid : String) (limit offset : Nat) :
    List ChatRow :=
  ((List.insertionSort histGE (db.filter (fun r => r.user_id == uid))).drop offset).take limit

/-- The grouping step of ChatService.get_history: the conversations dict keeps
conversation ids in first-insertion order and each row's message is appended
at the end of its conversation; created_at of the group is the first row seen
for that conversation. -/
def addRowToConvs (convs : List Conversation) (r : ChatRow) : List Conversation :=
  if convs.any (fun c => c.conversation_id == r.conversation_id) then
    convs.map (fun c =>
      if c.conversation_id == r.conversation_id then
        { c with messages := c.messages ++ [⟨r.role, r.message, r.created_at⟩] }
      else c)
  else
    convs ++ [⟨r.conversation_id, [⟨r.role, r.message, r.created_at⟩], r.created_at⟩]

/-- ChatService.get_history of deepseek_python_20251231_7a28c0.py: fetch the
caller's rows newest first, then group them by conversation id. -/
def getHistory (db : List ChatRow) (uid : String) (limit offset : Nat) :
    List Conversation :=
  (fetchHistoryRows db uid limit offset).foldl addRowToConvs []

/-- Timestamp of the first (most recent) message of a conversation group. -/
def latestTs (c : Conversation) : Nat :=
  match c.messages with
  | [] => 0
  | m :: _ => m.timestamp

/-- A sample vector-index record for document d1. -/
def sampleVC1 : VChunk := ⟨"c1", ['x'], [1], "n1", 0, "u1"⟩

/-- A sample vector-index record for document d2. -/
def sampleVC2 : VChunk := ⟨"c2", ['y'], [1], "n2", 0, "u1"⟩

/-- A sample stub index holding one chunk for each of d1 and d2, inserted in
this order. -/
def sampleIndex : List (String × List VChunk) := [("d1", [sampleVC1]), ("d2", [sampleVC2])]

/-- An embedding provider that fails on chunks of at most one character and
succeeds otherwise: with the default segmentation an 801-character document
embeds its first chunk (801 characters) and fails on its second (1 character),
the mid-document failure of the claim scenario. -/
def embedFailShort : List Char → Except String (List Int) :=
  fun c => if c.length ≤ 1 then Except.error "boom" else Except.ok [Int.ofNat c.length]

/-- An embedding provider that always succeeds. -/
def embedAlwaysOk : List Char → Except String (List Int) :=
  fun c => Except.ok [Int.ofNat c.length]

/-- A document row owned by alice, not yet processed. -/
def sampleDocRow : DocRow := ⟨"d1", "alice", "f.txt", "/tmp/f.txt", false, false, 0, false, none⟩

/-- A state holding only the unprocessed document d1, empty tables and index. -/
def sampleState0 : RagState := ⟨[sampleDocRow], [], []⟩

/-- A filesystem on which every document extracts to 801 characters: two
chunks under the default chunk_size 1000 and overlap 200. -/
def sampleFiles801 : String → List Char := fun _ => List.replicate 801 'a'

/-- A filesystem on which every document extracts to 5 characters: one chunk
under the default parameters. -/
def sampleFiles5 : String → List Char := fun _ => List.replicate 5 'a'

/-- The state after the failing processing attempt of the C1 scenario. -/
def c1Result : RagState :=
  processDocument embedFailShort sampleFiles801 (fun _ => "cid") "d1" "alice" sampleState0

/-- The state after one successful processing of the 5-character document. -/
def c5Once : RagState :=
  processDocument embedAlwaysOk sampleFiles5 (fun _ => "cid") "d1" "alice" sampleState0

/-- The state after reprocessing the same document with identical content. -/
def c5Twice : RagState :=
  processDocument embedAlwaysOk sampleFiles5 (fun _ => "cid") "d1" "alice" c5Once

/-- The documents row of d1 as it stands in c5Once: processing started,
processed, one chunk. -/
def sampleDocRowProcessed : DocRow :=
  ⟨"d1", "alice", "f.txt", "/tmp/f.txt", true, true, 1, true, none⟩

/-- A state where alice's document d1 has one chunk row and one vector entry,
used to call delete_document as the wrong user bob. -/
def sampleStateC9 : RagState :=
  ⟨[sampleDocRow], [⟨"c1", "d1", ['x'], 0⟩], [("d1", [sampleVC1])]⟩

/-- A deterministic sample backend stream: every prompt yields the deltas
Hel and lo. -/
def sampleStreamGen : String → List String := fun _ => ["Hel", "lo"]

/-- The matching sample backend synchronous generation: Hello. -/
def sampleGen : String → String := fun _ => "Hello"

/-- A sample chat request. -/
def sampleMessages : List ChatMsg := [⟨"user", "hi"⟩]

/-- A two-row history: one conversation of u1 whose user turn is at time 1
and assistant turn at time 2. -/
def sampleHistory : List ChatRow :=
  [⟨"u1", "conv1", "user", "hello", 1⟩, ⟨"u1", "conv1", "assistant", "hi there", 2⟩]

/-- A chroma collection holding a single chunk of a document the caller does
not own. -/
def sampleForeignEntry : CEntry := ⟨"cf", "dforeign", "nf", ['z'], [1]⟩

/-- With a stride of zero (overlap = chunk_size) and a nonempty text the loop
never leaves offset 0, so no amount of fuel completes it. -/
theorem splitTextFuel_stalls (text : List Char) (chunkSize : Nat)
    (htext : text ≠ []) : ∀ fuel, splitTextFuel text chunkSize chunkSize 0 fuel = none := by
  intro fuel
  induction fuel with
  | zero => rfl
  | succ f ih =>
    have hlen : 0 < text.length := List.length_pos.mpr htext
    simp only [splitTextFuel, hlen, if_true, Nat.sub_self, Nat.add_zero, ih]
    rfl

/-- Number of chunks emitted from a given offset, for any adequate iteration
bound: ceil((len - start) / stride) with stride = chunk_size - overlap. -/
theorem splitTextGo_length (text : List Char) (chunkSize overlap : Nat)
    (hov : overlap < chunkSize) : ∀ fuel start, text.length ≤ start + fuel →
    (splitTextGo text chunkSize overlap start fuel).length
      = (text.length - start + (chunkSize - overlap) - 1) / (chunkSize - overlap) := by
  have hstep : 0 < chunkSize - overlap := by omega
  intro fuel
  induction fuel with
  | zero =>
    intro start hle
    have hc : (text.length - start + (chunkSize - overlap) - 1) / (chunkSize - overlap) = 0 :=
      Nat.div_eq_of_lt (by omega)
    rw [splitTextGo]
    simp [hc]
  | succ n ih =>
    intro start hle
    rw [splitTextGo]
    by_cases hlt : start < text.length
    · simp only [hlt, if_true, List.length_cons]
      rw [ih (start + (chunkSize - overlap)) (by omega)]
      set s := chunkSize - overlap with hs
      by_cases hbig : start + s < text.length
      · have harith : text.length - start + s - 1
            = (text.length - (start + s) + s - 1) + s := by omega
        rw [harith, Nat.add_div_right _ hstep]
      · have h1 : text.length - (start + s) = 0 := by omega
        rw [h1]
        have h2 : (0 + s - 1) / s = 0 := Nat.div_eq_of_lt (by omega)
        rw [h2]
        have h4 : s ≤ text.length - start + s - 1 := by omega
        rw [Nat.div_eq_sub_div hstep h4, Nat.div_eq_of_lt (by omega)]
    · simp only [hlt, if_false, List.length_nil]
      have : text.length - start = 0 := by omega
      rw [this, Nat.div_eq_of_lt (by omega)]

/-- Closed form of the loop for any adequate iteration bound: the emitted
chunks are exactly the windows
text[start + i * stride : start + i * stride + chunk_size] for
i < ceil((len - start) / stride). -/
theorem splitTextGo_eq_map_range (text : List Char) (chunkSize overlap : Nat)
    (hov : overlap < chunkSize) : ∀ fuel start, text.length ≤ start + fuel →
    splitTextGo text chunkSize overlap start fuel
      = (List.range ((text.length - start + (chunkSize - overlap) - 1) / (chunkSize - overlap))).map
          (fun i => (text.drop (start + i * (chunkSize - overlap))).take chunkSize) := by
  have hstep : 0 < chunkSize - overlap := by omega
  intro fuel
  induction fuel with
  | zero =>
    intro start hle
    rw [splitTextGo]
    have hc : (text.length - start + (chunkSize - overlap) - 1) / (chunkSize - overlap) = 0 := by
      rw [Nat.div_eq_of_lt (by omega)]
    simp [hc]
  | succ n ih =>
    intro start hle
    rw [splitTextGo]
    by_cases hlt : start < text.length
    · have hcount : (text.length - start + (chunkSize - overlap) - 1) / (chunkSize - overlap)
          = (text.length - (start + (chunkSize - overlap)) + (chunkSize - overlap) - 1)
              / (chunkSize - overlap) + 1 := by
        set s := chunkSize - overlap with hs
        by_cases hbig : start + s < text.length
        · have harith : text.length - start + s - 1
              = (text.length - (start + s) + s - 1) + s := by omega
          rw [harith, Nat.add_div_right _ hstep]
        · have h1 : text.length - (start + s) = 0 := by omega
          rw [h1]
          have h2 : (0 + s - 1) / s = 0 := Nat.div_eq_of_lt (by omega)
          rw [h2]
          have h4 : s ≤ text.length - start + s - 1 := by omega
          rw [Nat.div_eq_sub_div hstep h4, Nat.div_eq_of_lt (by omega)]
      rw [hcount]
      simp only [hlt, if_true]
      rw [List.range_succ_eq_map, List.map_cons, List.map_map]
      have hz : start + 0 * (chunkSize - overlap) = start := by omega
      rw [ih (start + (chunkSize - overlap)) (by omega)]
      simp only [hz]
      refine congrArg (List.cons _) ?_
      apply List.map_congr_left
      intro i _
      simp only [Function.comp_apply]
      have : start + (chunkSize - overlap) + i * (chunkSize - overlap)
          = start + (i + 1) * (chunkSize - overlap) := by ring
      rw [this]
    · have : text.length - start = 0 := by omega
      have hc : (text.length - start + (chunkSize - overlap) - 1) / (chunkSize - overlap) = 0 := by
        rw [this, Nat.div_eq_of_lt (by omega)]
      simp [hlt, hc]

/-- Total chunk count of split_text for valid parameters:
ceil(len / stride) with stride = chunk_size - overlap. -/
theorem splitText_length (text : List Char) (chunkSize overlap : Nat)
    (hov : overlap < chunkSize) :
    (splitText text chunkSize overlap).length
      = (text.length + (chunkSize - overlap) - 1) / (chunkSize - overlap) := by
  unfold splitText
  by_cases hne : text.isEmpty
  · have hlen : text.length = 0 := by
      cases text with
      | nil => rfl
      | cons a l => simp [List.isEmpty] at hne
    rw [if_pos hne]
    simp [hlen, Nat.div_eq_of_lt (show chunkSize - overlap - 1 < chunkSize - overlap by omega)]
  · rw [if_neg hne, if_pos hov, splitTextGo_length text chunkSize overlap hov text.length 0 (by omega)]
    simp

/-- Closed form of split_text for valid parameters: the windows at offsets
0, stride, 2 stride, ... below len. -/
theorem splitText_eq_windows (text : List Char) (chunkSize overlap : Nat)
    (hov : overlap < chunkSize) :
    splitText text chunkSize overlap
      = (List.range ((text.length + (chunkSize - overlap) - 1) / (chunkSize - overlap))).map
          (fun i => (text.drop (i * (chunkSize - overlap))).take chunkSize) := by
  unfold splitText
  by_cases hne : text.isEmpty
  · have hlen : text.length = 0 := by
      cases text with
      | nil => rfl
      | cons a l => simp [List.isEmpty] at hne
    rw [if_pos hne]
    rw [hlen]
    rw [Nat.div_eq_of_lt (show 0 + (chunkSize - overlap) - 1 < chunkSize - overlap by omega)]
    simp
  · rw [if_neg hne, if_pos hov,
      splitTextGo_eq_map_range text chunkSize overlap hov text.length 0 (by omega)]
    simp

/-- C3 counterexample: the claimed chunk-count formula
ceil((len - overlap) / (size - overlap)) fails on the code.  A 5-character
text with chunk_size 2 and overlap 1 satisfies len > chunk_size; the formula
claims ceil((5-1)/(2-1)) = 4 chunks, but split_text emits 5. -/
theorem claim_C3_counterexample :
    2 < (List.replicate 5 'a').length ∧
    (splitText (List.replicate 5 'a') 2 1).length = 5 ∧
    ((List.replicate 5 'a').length - 1 + (2 - 1) - 1) / (2 - 1) = 4 := by
  refine ⟨by decide, ?_, by decide⟩
  rw [splitText_length (List.replicate 5 'a') 2 1 (by norm_num)]
  simp

/-- C3 (amended): for overlap < chunk_size, split_text emits exactly
ceil(len / (chunk_size - overlap)) chunks (0 for empty text, which the
formula also gives); in particular a text of length 2500 with chunk_size 1000
and overlap 200 yields 4 chunks, not 3 (see the witness). -/
theorem claim_C3_amended (text : List Char) (chunkSize overlap : Nat)
    (hov : overlap < chunkSize) :
    (splitText text chunkSize overlap).length
      = (text.length + (chunkSize - overlap) - 1) / (chunkSize - overlap) :=
  splitText_length text chunkSize overlap hov

/-- C3 witness: the amended count at the example of the claim, a text of
length 2500 with chunk_size 1000 and overlap 200: 4 chunks. -/
theorem claim_C3_witness :
    (splitText (List.replicate 2500 'a') 1000 200).length = 4 := by
  have h := claim_C3_amended (List.replicate 2500 'a') 1000 200 (by norm_num)
  rw [h, List.length_replicate]

/-- C4 counterexample: a 9-character text with chunk_size 10 and overlap 8
satisfies the constraints and is shorter than chunk_size, so the claim says it
yields exactly one chunk equal to the input; split_text emits 5 chunks. -/
theorem claim_C4_counterexample :
    (List.replicate 9 'a').length < 10 ∧
    (splitText (List.replicate 9 'a') 10 8).length = 5 := by
  refine ⟨by decide, ?_⟩
  rw [splitText_length (List.replicate 9 'a') 10 8 (by norm_num)]
  simp

/-- C4 (amended): for overlap < chunk_size the emitted chunks are the windows
text[start : start + chunk_size] for start = 0, stride chunk_size - overlap,
while start < len; their spans cover every position of the input; consecutive
windows share exactly overlap characters whenever the earlier window has full
length chunk_size; empty input yields no chunks; and input no longer than the
stride chunk_size - overlap (rather than chunk_size, on which the claim fails)
yields exactly one chunk equal to the input. -/
theorem claim_C4_amended (text : List Char) (chunkSize overlap : Nat)
    (hov : overlap < chunkSize) :
    (splitText text chunkSize overlap
        = (List.range ((text.length + (chunkSize - overlap) - 1) / (chunkSize - overlap))).map
            (fun i => (text.drop (i * (chunkSize - overlap))).take chunkSize))
    ∧ (∀ j, j < text.length →
        ∃ i, i < (text.length + (chunkSize - overlap) - 1) / (chunkSize - overlap)
          ∧ i * (chunkSize - overlap) ≤ j ∧ j < i * (chunkSize - overlap) + chunkSize)
    ∧ (text = [] → splitText text chunkSize overlap = [])
    ∧ (text ≠ [] → text.length ≤ chunkSize - overlap →
        splitText text chunkSize overlap = [text])
    ∧ (∀ i, i * (chunkSize - overlap) + chunkSize ≤ text.length →
        ((text.drop (i * (chunkSize - overlap))).take chunkSize).drop (chunkSize - overlap)
          = ((text.drop ((i + 1) * (chunkSize - overlap))).take chunkSize).take overlap) := by
  have hstep : 0 < chunkSize - overlap := by omega
  refine ⟨?win, ?cover, ?empt, ?single, ?olap⟩
  case win => exact splitText_eq_windows text chunkSize overlap hov
  case cover =>
    intro j hj
    refine ⟨j / (chunkSize - overlap), ?_, ?_, ?_⟩
    · have h1 : (j + (chunkSize - overlap)) / (chunkSize - overlap)
          ≤ (text.length + (chunkSize - overlap) - 1) / (chunkSize - overlap) :=
        Nat.div_le_div_right (by omega)
      rw [Nat.add_div_right j hstep] at h1
      omega
    · exact Nat.div_mul_le_self j (chunkSize - overlap)
    · have h1 : (chunkSize - overlap) * (j / (chunkSize - overlap)) + j % (chunkSize - overlap) = j :=
        Nat.div_add_mod j (chunkSize - overlap)
      have h2 : j % (chunkSize - overlap) < chunkSize - overlap := Nat.mod_lt _ hstep
      have h3 : j / (chunkSize - overlap) * (chunkSize - overlap)
          = (chunkSize - overlap) * (j / (chunkSize - overlap)) := Nat.mul_comm _ _
      omega
  case empt =>
    intro h
    simp [h, splitText]
  case single =>
    intro hne hshort
    have hlen : 0 < text.length := List.length_pos.mpr hne
    rw [splitText_eq_windows text chunkSize overlap hov]
    have hcount : (text.length + (chunkSize - overlap) - 1) / (chunkSize - overlap) = 1 :=
      Nat.div_eq_of_lt_le (by omega) (by omega)
    rw [hcount]
    have htake : text.take chunkSize = text := List.take_of_length_le (by omega)
    have hr : List.range 1 = [0] := rfl
    simp [hr, htake]
  case olap =>
    intro i hfull
    rw [List.drop_take]
    rw [List.take_take]
    rw [List.drop_drop]
    have h1 : chunkSize - (chunkSize - overlap) = overlap := by omega
    have h2 : i * (chunkSize - overlap) + (chunkSize - overlap) = (i + 1) * (chunkSize - overlap) := by
      ring
    have h3 : min overlap chunkSize = overlap := Nat.min_eq_left (by omega)
    rw [h1, h3, h2]

/-- C4 witness: the amended statement applied at the text abc with chunk_size
2 and overlap 1: the emitted chunks are ab, bc, c. -/
theorem claim_C4_witness :
    splitText ['a', 'b', 'c'] 2 1 = [['a', 'b'], ['b', 'c'], ['c']] := by
  have h := (claim_C4_amended ['a', 'b', 'c'] 2 1 (by norm_num)).1
  rw [h]
  decide

/-- C7 counterexample: split_text performs no parameter validation.  At the
one-character text a with chunk_size 1 and overlap 1 (a case where the claim
demands a terminating ConfigError failure), the while loop never terminates:
no amount of fuel completes it, so no result and no error is ever produced. -/
theorem claim_C7_counterexample :
    ¬ ∃ fuel result, splitTextFuel ['a'] 1 1 0 fuel = some result := by
  rintro ⟨fuel, result, h⟩
  rw [splitTextFuel_stalls ['a'] 1 (by decide) fuel] at h
  exact Option.noConfusion h

/-- C7 (amended): the code validates nothing and no ConfigError exists in the
repository.  For any parameters the empty text immediately yields no chunks,
and for a nonempty text with overlap = chunk_size (stride zero, a case the
claim covers) the loop never terminates. -/
theorem claim_C7_amended (text : List Char) (chunkSize overlap : Nat) :
    (text = [] → ∀ fuel, splitTextFuel text chunkSize overlap 0 (fuel + 1) = some [])
    ∧ (text ≠ [] → overlap = chunkSize →
        ∀ fuel, splitTextFuel text chunkSize overlap 0 fuel = none) := by
  constructor
  · intro h fuel
    subst h
    simp [splitTextFuel]
  · intro hne hov fuel
    subst hov
    exact splitTextFuel_stalls text _ hne fuel

/-- C7 witness: the amended behavior at concrete inputs: the empty text with
chunk_size 2 and overlap 1 yields [] in one iteration, and the text a with
chunk_size 1 and overlap 1 is still running after 5 iterations. -/
theorem claim_C7_witness :
    splitTextFuel [] 2 1 0 1 = some [] ∧ splitTextFuel ['a'] 1 1 0 5 = none := by
  refine ⟨(claim_C7_amended [] 2 1).1 rfl 0, (claim_C7_amended ['a'] 1 1).2 (by decide) rfl 5⟩

/-- Appending a chunk for a document extends exactly that document's record
list at the end. -/
theorem vsGet_addChunk_self (idx : List (String × List VChunk)) (did : String) (c : VChunk) :
    vsGet (vsAddChunk idx did c) did = vsGet idx did ++ [c] := by
  induction idx with
  | nil => simp [vsAddChunk, vsGet]
  | cons p rest ih =>
    obtain ⟨k, v⟩ := p
    by_cases h : k = did
    · simp [vsAddChunk, vsGet, h]
    · simp [vsAddChunk, vsGet, h, ih]

/-- After deleting a document from the stub index it has no records. -/
theorem vsGet_delete (idx : List (String × List VChunk)) (did : String) :
    vsGet (vsDelete idx did) did = [] := by
  induction idx with
  | nil => rfl
  | cons p rest ih =>
    obtain ⟨k, v⟩ := p
    by_cases h : k = did
    · simpa [vsDelete, h] using ih
    · simpa [vsDelete, vsGet, h] using ih

/-- C2 counterexample: an index holding one chunk for d1 and one for d2,
searched with filter [d1, d2] and limit 1, returns 2 results: the stub applies
the limit per document of the filter, not to the whole result, so the claimed
bound of at most k results fails (and with constant score 1.0 a
strictly-descending order is impossible for two results). -/
theorem claim_C2_counterexample :
    (vsSearch sampleIndex ['q'] (some ["d1", "d2"]) 1).length = 2 ∧ ¬ (2 ≤ 1) := by
  refine ⟨by decide, by decide⟩

/-- C2 (amended): for the stub index, a filtered search returns only chunks of
documents in the filter list, every score is the constant 1.0 (so the ranking
is trivial: results appear in filter-list order, then insertion order, never
strictly descending for two or more results), and at most limit results are
returned per filter entry, giving the bound limit * length of the filter
instead of the claimed limit. -/
theorem claim_C2_amended (idx : List (String × List VChunk)) (q : List Char)
    (docIds : List String) (limit : Nat) :
    (∀ r ∈ vsSearch idx q (some docIds) limit, r.document_id ∈ docIds ∧ r.score = 1)
    ∧ (vsSearch idx q (some docIds) limit).length ≤ limit * docIds.length := by
  constructor
  · intro r hr
    unfold vsSearch at hr
    simp only [List.mem_flatMap, List.mem_map] at hr
    obtain ⟨did, hdid, ⟨c, _hc, hr⟩⟩ := hr
    subst hr
    exact ⟨hdid, rfl⟩
  · have key : ∀ l : List String,
        (l.flatMap (fun did => ((vsGet idx did).take limit).map
          (fun c => (⟨did, c.chunk_id, c.content, 1⟩ : SearchResult)))).length
          ≤ limit * l.length := by
      intro l
      induction l with
      | nil => simp
      | cons d ds ih =>
        rw [List.flatMap_cons, List.length_append, List.length_cons, Nat.mul_succ]
        have h1 : (((vsGet idx d).take limit).map
            (fun c => (⟨d, c.chunk_id, c.content, 1⟩ : SearchResult))).length ≤ limit := by
          rw [List.length_map]
          exact List.length_take_le limit (vsGet idx d)
        omega
    exact key docIds

/-- C2 witness: the amended bound at the sample index with filter [d1, d2]
and limit 1, and containment and score of one concrete returned result. -/
theorem claim_C2_witness :
    (vsSearch sampleIndex ['q'] (some ["d1", "d2"]) 1).length ≤ 1 * 2
    ∧ ((⟨"d1", "c1", ['x'], 1⟩ : SearchResult).document_id ∈ ["d1", "d2"]
        ∧ (⟨"d1", "c1", ['x'], 1⟩ : SearchResult).score = 1) :=
  ⟨(claim_C2_amended sampleIndex ['q'] ["d1", "d2"] 1).2,
   (claim_C2_amended sampleIndex ['q'] ["d1", "d2"] 1).1
     ⟨"d1", "c1", ['x'], 1⟩ (by decide)⟩

/-- C9: calling delete_document for a document that exists but belongs to a
different owner returns False (rowcount of the owner-guarded DELETE is zero
and the document row survives), yet the vector-index entries and all chunk
rows of the document have already been deleted: the failed delete is not
atomic and mutates state the caller does not own. -/
theorem claim_C9 (did uid : String) (s : RagState)
    (hother : ∃ d ∈ s.documents, d.id = did ∧ d.user_id ≠ uid)
    (hnone : ∀ d ∈ s.documents, d.id = did → d.user_id ≠ uid) :
    (deleteDocument did uid s).2 = false
    ∧ vsGet (deleteDocument did uid s).1.vindex did = []
    ∧ (deleteDocument did uid s).1.document_chunks.filter
        (fun c => c.document_id == did) = []
    ∧ ∃ d ∈ (deleteDocument did uid s).1.documents, d.id = did ∧ d.user_id ≠ uid := by
  refine ⟨?ret, ?vin, ?chs, ?kept⟩
  case ret =>
    have hfil : s.documents.filter (fun d => d.id == did && d.user_id == uid) = [] := by
      rw [List.filter_eq_nil_iff]
      intro d hd
      simp only [Bool.and_eq_true, beq_iff_eq, not_and]
      intro h1 h2
      exact hnone d hd h1 h2
    unfold deleteDocument
    rw [hfil]
    rfl
  case vin => exact vsGet_delete s.vindex did
  case chs =>
    unfold deleteDocument
    rw [List.filter_eq_nil_iff]
    intro c hc
    rw [List.mem_filter] at hc
    simp only [Bool.not_eq_eq_eq_not, Bool.not_true, beq_eq_false_iff_ne] at hc
    simp only [beq_iff_eq]
    exact hc.2
  case kept =>
    obtain ⟨d, hd, hid, huser⟩ := hother
    refine ⟨d, ?_, hid, huser⟩
    unfold deleteDocument
    rw [List.mem_filter]
    refine ⟨hd, ?_⟩
    simp only [Bool.not_eq_eq_eq_not, Bool.not_true, Bool.and_eq_false_iff]
    right
    simpa using huser

/-- C9 witness: deleting alice's document d1 as bob on the sample state:
returns false, but the vector entries and chunk rows of d1 are gone. -/
theorem claim_C9_witness :
    (deleteDocument "d1" "bob" sampleStateC9).2 = false
    ∧ vsGet (deleteDocument "d1" "bob" sampleStateC9).1.vindex "d1" = []
    ∧ (deleteDocument "d1" "bob" sampleStateC9).1.document_chunks.filter
        (fun c => c.document_id == "d1") = [] := by
  have h := claim_C9 "d1" "bob" sampleStateC9
    ⟨sampleDocRow, by decide, by decide, by decide⟩
    (by decide)
  exact ⟨h.1, h.2.1, h.2.2.1⟩

/-- Row updates keyed on a document id leave any projection alone that the
update function preserves. -/
theorem updateDoc_map_eq {β : Type} (docs : List DocRow) (did : String) (f : DocRow → DocRow)
    (h : DocRow → β) (hpres : ∀ d, h (f d) = h d) :
    (updateDoc docs did f).map h = docs.map h := by
  unfold updateDoc
  rw [List.map_map]
  apply List.map_congr_left
  intro d _
  simp only [Function.comp_apply]
  split
  · exact hpres d
  · rfl

/-- When every chunk embeds successfully, the ingestion loop returns no error,
leaves the documents table alone, and appends exactly the chunk contents to
the document's vector entries and chunk rows. -/
theorem ingestChunks_ok (embed : List Char → Except String (List Int)) (genId : Nat → String)
    (did uid fname : String) :
    ∀ (chunks : List (List Char)) (i : Nat) (s : RagState),
    (∀ c ∈ chunks, ∃ v, embed c = Except.ok v) →
    ∃ s2, ingestChunks embed genId did uid fname chunks i s = (s2, none)
      ∧ s2.documents = s.documents
      ∧ (vsGet s2.vindex did).map VChunk.content
          = (vsGet s.vindex did).map VChunk.content ++ chunks
      ∧ (s2.document_chunks.filter (fun r => r.document_id == did)).map ChunkRow.content
          = (s.document_chunks.filter (fun r => r.document_id == did)).map ChunkRow.content
              ++ chunks := by
  intro chunks
  induction chunks with
  | nil =>
    intro i s _
    exact ⟨s, rfl, rfl, by simp, by simp⟩
  | cons c rest ih =>
    intro i s h
    obtain ⟨v, hv⟩ := h c (List.mem_cons_self c rest)
    have hrest : ∀ x ∈ rest, ∃ w, embed x = Except.ok w :=
      fun x hx => h x (List.mem_cons_of_mem _ hx)
    obtain ⟨sf, heq, hdocs, hvin, hch⟩ := ih (i + 1)
      ⟨s.documents, s.document_chunks ++ [⟨genId i, did, c, i⟩],
        vsAddChunk s.vindex did ⟨genId i, c, v, fname, i, uid⟩⟩ hrest
    refine ⟨sf, ?_, hdocs, ?_, ?_⟩
    · simp only [ingestChunks, hv]
      exact heq
    · rw [hvin]
      simp only [vsGet_addChunk_self, List.map_append]
      simp
    · rw [hch]
      have hrow : (⟨genId i, did, c, i⟩ : ChunkRow).document_id == did := by simp
      simp only [List.filter_append, List.map_append]
      simp [List.filter, hrow]

/-- When the chunks before position j embed successfully and the chunk at
position j fails, the ingestion loop stops with that error, leaves the
documents table alone, and the entries and rows inserted before the failure
remain appended. -/
theorem ingestChunks_error (embed : List Char → Except String (List Int)) (genId : Nat → String)
    (did uid fname : String) :
    ∀ (pre : List (List Char)) (c : List Char) (rest : List (List Char)) (e : String)
      (i : Nat) (s : RagState),
    (∀ x ∈ pre, ∃ v, embed x = Except.ok v) → embed c = Except.error e →
    ∃ s2, ingestChunks embed genId did uid fname (pre ++ c :: rest) i s = (s2, some e)
      ∧ s2.documents = s.documents
      ∧ (vsGet s2.vindex did).map VChunk.content
          = (vsGet s.vindex did).map VChunk.content ++ pre
      ∧ (s2.document_chunks.filter (fun r => r.document_id == did)).map ChunkRow.content
          = (s.document_chunks.filter (fun r => r.document_id == did)).map ChunkRow.content
              ++ pre := by
  intro pre
  induction pre with
  | nil =>
    intro c rest e i s _ hc
    refine ⟨s, ?_, rfl, by simp, by simp⟩
    simp only [List.nil_append, ingestChunks, hc]
  | cons p ps ih =>
    intro c rest e i s h hc
    obtain ⟨v, hv⟩ := h p (List.mem_cons_self p ps)
    have hps : ∀ x ∈ ps, ∃ w, embed x = Except.ok w :=
      fun x hx => h x (List.mem_cons_of_mem _ hx)
    obtain ⟨sf, heq, hdocs, hvin, hch⟩ := ih c rest e (i + 1)
      ⟨s.documents, s.document_chunks ++ [⟨genId i, did, p, i⟩],
        vsAddChunk s.vindex did ⟨genId i, p, v, fname, i, uid⟩⟩ hps hc
    refine ⟨sf, ?_, hdocs, ?_, ?_⟩
    · simp only [List.cons_append, ingestChunks, hv]
      exact heq
    · rw [hvin]
      simp only [vsGet_addChunk_self, List.map_append]
      simp
    · rw [hch]
      have hrow : (⟨genId i, did, p, i⟩ : ChunkRow).document_id == did := by simp
      simp only [List.filter_append, List.map_append]
      simp [List.filter, hrow]

/-- C1 counterexample: on the 801-character document the embedding provider
fails on the second chunk.  After the attempt the document records the error,
but one vector entry and one chunk row inserted during the failed attempt
remain: the attempt is not rolled back, refuting the zero-entries claim. -/
theorem claim_C1_counterexample :
    c1Result.documents.map DocRow.processing_error = [some "boom"]
    ∧ vcount c1Result "d1" = 1
    ∧ (chunkRowsFor c1Result "d1").length = 1 := by
  decide

/-- C1 (amended): if processing finds the document and the embedding provider
fails on the chunk after a successful prefix pre, then afterwards every
documents row with that id has processing_error recorded, the processed flags
of all rows are unchanged (no failed status exists beyond the error column),
and the vector entries and chunk rows inserted for the prefix during this
attempt remain; nothing is rolled back. -/
theorem claim_C1_amended (embed : List Char → Except String (List Int))
    (files : String → List Char) (genId : Nat → String)
    (did uid : String) (s : RagState) (doc : DocRow)
    (pre rest : List (List Char)) (c : List Char) (e : String)
    (hfind : findDoc s.documents did uid = some doc)
    (hchunks : splitText (files doc.filepath) 1000 200 = pre ++ c :: rest)
    (hpre : ∀ x ∈ pre, ∃ v, embed x = Except.ok v)
    (hc : embed c = Except.error e) :
    (∀ d ∈ (processDocument embed files genId did uid s).documents,
        d.id = did → d.processing_error = some e)
    ∧ (vsGet (processDocument embed files genId did uid s).vindex did).map VChunk.content
        = (vsGet s.vindex did).map VChunk.content ++ pre
    ∧ ((processDocument embed files genId did uid s).document_chunks.filter
        (fun r => r.document_id == did)).map ChunkRow.content
        = (s.document_chunks.filter (fun r => r.document_id == did)).map ChunkRow.content
            ++ pre
    ∧ (processDocument embed files genId did uid s).documents.map DocRow.processed
        = s.documents.map DocRow.processed := by
  obtain ⟨sf, heq, hdocs, hvin, hch⟩ := ingestChunks_error embed genId did uid doc.filename
    pre c rest e 0
    ⟨updateDoc s.documents did (fun d => { d with processing_started := true }),
      s.document_chunks, s.vindex⟩ hpre hc
  have hP : processDocument embed files genId did uid s
      = ⟨updateDoc sf.documents did (fun d => { d with processing_error := some e }),
         sf.document_chunks, sf.vindex⟩ := by
    simp only [processDocument, hfind, hchunks]
    rw [heq]
  rw [hP]
  refine ⟨?err, ?vin, ?chs, ?proc⟩
  case err =>
    intro d hd hid
    simp only [updateDoc, List.mem_map] at hd
    obtain ⟨d0, _hd0, hd⟩ := hd
    by_cases h0 : d0.id == did
    · rw [if_pos h0] at hd
      rw [← hd]
    · rw [if_neg h0] at hd
      subst hd
      exact absurd hid (by simpa using h0)
  case vin =>
    simpa using hvin
  case chs =>
    simpa using hch
  case proc =>
    have h1 : (updateDoc sf.documents did
        (fun d => { d with processing_error := some e })).map DocRow.processed
        = sf.documents.map DocRow.processed :=
      updateDoc_map_eq _ _ _ _ (fun d => rfl)
    have h2 : (updateDoc s.documents did
        (fun d => { d with processing_started := true })).map DocRow.processed
        = s.documents.map DocRow.processed :=
      updateDoc_map_eq _ _ _ _ (fun d => rfl)
    calc (updateDoc sf.documents did
            (fun d => { d with processing_error := some e })).map DocRow.processed
        = sf.documents.map DocRow.processed := h1
      _ = s.documents.map DocRow.processed := by rw [hdocs]; exact h2

/-- C1 witness: the amended statement at the concrete failing scenario: the
801-character chunk embedded before the failure stays in the vector index. -/
theorem claim_C1_witness :
    (vsGet c1Result.vindex "d1").map VChunk.content
      = (vsGet sampleState0.vindex "d1").map VChunk.content ++ [List.replicate 801 'a'] :=
  (claim_C1_amended embedFailShort sampleFiles801 (fun _ => "cid") "d1" "alice" sampleState0
    sampleDocRow [List.replicate 801 'a'] [] ['a'] "boom" (by decide) (by decide)
    (by
      intro x hx
      rw [List.mem_singleton] at hx
      subst hx
      exact ⟨[Int.ofNat 801], rfl⟩)
    rfl).2.1

/-- C5 counterexample: processing the 5-character document succeeds with one
chunk; reprocessing it with identical content does not first clear the prior
chunks and vector entries, so afterwards the document holds two vector entries
and two chunk rows: the entry count does not stay constant. -/
theorem claim_C5_counterexample :
    vcount c5Once "d1" = 1 ∧ vcount c5Twice "d1" = 2
    ∧ (chunkRowsFor c5Twice "d1").length = 2 := by
  decide

/-- C5 (amended): a successful processing attempt never clears prior state:
it appends the chunk contents of the (identical) content to the document's
vector entries and chunk rows, so each reprocessing grows both by the chunk
count while chunks_count is set to the per-attempt count and the appended
contents are the same on every repeat. -/
theorem claim_C5_amended (embed : List Char → Except String (List Int))
    (files : String → List Char) (genId : Nat → String)
    (did uid : String) (s : RagState) (doc : DocRow)
    (hfind : findDoc s.documents did uid = some doc)
    (hok : ∀ x ∈ splitText (files doc.filepath) 1000 200, ∃ v, embed x = Except.ok v) :
    (vsGet (processDocument embed files genId did uid s).vindex did).map VChunk.content
        = (vsGet s.vindex did).map VChunk.content ++ splitText (files doc.filepath) 1000 200
    ∧ ((processDocument embed files genId did uid s).document_chunks.filter
        (fun r => r.document_id == did)).map ChunkRow.content
        = (s.document_chunks.filter (fun r => r.document_id == did)).map ChunkRow.content
            ++ splitText (files doc.filepath) 1000 200
    ∧ (∀ d ∈ (processDocument embed files genId did uid s).documents, d.id = did →
        d.processed = true
          ∧ d.chunks_count = (splitText (files doc.filepath) 1000 200).length) := by
  obtain ⟨sf, heq, hdocs, hvin, hch⟩ := ingestChunks_ok embed genId did uid doc.filename
    (splitText (files doc.filepath) 1000 200) 0
    ⟨updateDoc s.documents did (fun d => { d with processing_started := true }),
      s.document_chunks, s.vindex⟩ hok
  have hP : processDocument embed files genId did uid s
      = ⟨updateDoc sf.documents did
          (fun d => { d with processed := true, processed_at := true,
                             chunks_count := (splitText (files doc.filepath) 1000 200).length }),
         sf.document_chunks, sf.vindex⟩ := by
    simp only [processDocument, hfind]
    rw [heq]
  rw [hP]
  refine ⟨?vin, ?chs, ?flags⟩
  case vin =>
    simpa using hvin
  case chs =>
    simpa using hch
  case flags =>
    intro d hd hid
    simp only [updateDoc, List.mem_map] at hd
    obtain ⟨d0, _hd0, hd⟩ := hd
    by_cases h0 : d0.id == did
    · rw [if_pos h0] at hd
      rw [← hd]
      exact ⟨rfl, rfl⟩
    · rw [if_neg h0] at hd
      subst hd
      exact absurd hid (by simpa using h0)

/-- C5 witness: the amended statement applied to the second (identical)
processing attempt: the single chunk content is appended again on top of the
first attempt's entry instead of replacing it. -/
theorem claim_C5_witness :
    (vsGet c5Twice.vindex "d1").map VChunk.content
      = (vsGet c5Once.vindex "d1").map VChunk.content ++ [List.replicate 5 'a'] :=
  (claim_C5_amended embedAlwaysOk sampleFiles5 (fun _ => "cid") "d1" "alice" c5Once
    sampleDocRowProcessed (by decide)
    (fun x _ => ⟨[Int.ofNat x.length], rfl⟩)).1

/-- Folding the accumulation step over delta frames appends the concatenation
of their contents. -/
theorem accumulateStream_deltas (l : List String) : ∀ acc : String,
    (l.map SSEFrame.delta).foldl
      (fun acc f =>
        match f with
        | .delta c => acc ++ c
        | .done => acc) acc
      = acc ++ concatStrings l := by
  induction l with
  | nil =>
    intro acc
    simp [concatStrings]
  | cons x xs ih =>
    intro acc
    simp only [List.map_cons, List.foldl_cons]
    rw [ih]
    simp [concatStrings, String.append_assoc]

/-- C6: against a deterministic Model Backend, that is one whose streamed
deltas concatenate to its synchronous generation on every prompt, the text
accumulated by the streaming completion equals the assistant content of the
synchronous completion for the same messages. -/
theorem claim_C6 (gen : String → String) (streamGen : String → List String)
    (messages : List ChatMsg)
    (hdet : ∀ p, concatStrings (streamGen p) = gen p) :
    accumulateStream (streamChatCompletion streamGen messages)
      = (chatCompletion gen messages).content := by
  unfold streamChatCompletion chatCompletion accumulateStream
  rw [List.foldl_append]
  simp only [List.foldl_cons, List.foldl_nil]
  rw [accumulateStream_deltas]
  simp [hdet]

/-- C6 witness: the equality at the sample deterministic backend streaming
Hel and lo and generating Hello, on the sample request. -/
theorem claim_C6_witness :
    accumulateStream (streamChatCompletion sampleStreamGen sampleMessages)
      = (chatCompletion sampleGen sampleMessages).content :=
  claim_C6 sampleGen sampleStreamGen sampleMessages
    (fun _ => by simp [concatStrings, sampleStreamGen, sampleGen])

/-- Rows fetched by get_history are in non-increasing created_at order. -/
theorem fetchHistoryRows_pairwise (db : List ChatRow) (uid : String) (limit offset : Nat) :
    (fetchHistoryRows db uid limit offset).Pairwise
      (fun a b => b.created_at ≤ a.created_at) := by
  have hs : (List.insertionSort histGE (db.filter (fun r => r.user_id == uid))).Pairwise histGE :=
    List.sorted_insertionSort histGE _
  have hsub : List.Sublist
      (((List.insertionSort histGE (db.filter (fun r => r.user_id == uid))).drop offset).take limit)
      (List.insertionSort histGE (db.filter (fun r => r.user_id == uid))) :=
    (List.take_sublist _ _).trans (List.drop_sublist _ _)
  exact List.Pairwise.sublist hsub hs

/-- Appending a message to a nonempty conversation keeps its leading
timestamp. -/
theorem latestTs_append (c : Conversation) (m : HistMsg) (h : c.messages ≠ []) :
    latestTs ⟨c.conversation_id, c.messages ++ [m], c.created_at⟩ = latestTs c := by
  cases hm : c.messages with
  | nil => exact absurd hm h
  | cons a l => simp [latestTs, hm]

/-- In a nonempty conversation whose messages are in non-increasing timestamp
order, the leading timestamp bounds every message. -/
theorem mem_latestTs_le (c : Conversation) (hne : c.messages ≠ [])
    (hdesc : c.messages.Pairwise (fun m1 m2 => m2.timestamp ≤ m1.timestamp)) :
    ∀ m ∈ c.messages, m.timestamp ≤ latestTs c := by
  intro m hmem
  cases hm : c.messages with
  | nil => exact absurd hm hne
  | cons a l =>
    rw [hm] at hmem hdesc
    rw [List.pairwise_cons] at hdesc
    have hl : latestTs c = a.timestamp := by simp [latestTs, hm]
    rw [hl]
    rcases List.mem_cons.mp hmem with h | h
    · rw [h]
    · exact hdesc.1 m h

/-- Invariant of the grouping fold of get_history: starting from an
accumulator of nonempty, internally non-increasing conversations whose
leading timestamps are non-increasing and bound every remaining row, folding
rows of non-increasing created_at preserves all of it. -/
theorem foldConvs_invariant : ∀ (rows : List ChatRow) (acc : List Conversation),
    rows.Pairwise (fun a b => b.created_at ≤ a.created_at) →
    (∀ c ∈ acc, c.messages ≠ []
      ∧ c.messages.Pairwise (fun m1 m2 => m2.timestamp ≤ m1.timestamp)) →
    acc.Pairwise (fun c1 c2 => latestTs c2 ≤ latestTs c1) →
    (∀ c ∈ acc, ∀ m ∈ c.messages, ∀ r ∈ rows, r.created_at ≤ m.timestamp) →
    (∀ c ∈ rows.foldl addRowToConvs acc, c.messages ≠ []
      ∧ c.messages.Pairwise (fun m1 m2 => m2.timestamp ≤ m1.timestamp))
    ∧ (rows.foldl addRowToConvs acc).Pairwise (fun c1 c2 => latestTs c2 ≤ latestTs c1) := by
  intro rows
  induction rows with
  | nil =>
    intro acc _ hacc hpw _
    exact ⟨hacc, hpw⟩
  | cons r rs ih =>
    intro acc hrows hacc hpw hge
    rw [List.pairwise_cons] at hrows
    rw [List.foldl_cons]
    apply ih (addRowToConvs acc r) hrows.2
    · -- members of the new accumulator are nonempty and non-increasing
      intro c hc
      unfold addRowToConvs at hc
      split at hc
      · rw [List.mem_map] at hc
        obtain ⟨c0, hc0, hc⟩ := hc
        obtain ⟨hne0, hdesc0⟩ := hacc c0 hc0
        by_cases hid : c0.conversation_id == r.conversation_id
        · rw [if_pos hid] at hc
          subst hc
          refine ⟨by simp, ?_⟩
          rw [List.pairwise_append]
          refine ⟨hdesc0, List.pairwise_singleton _ _, ?_⟩
          intro m1 hm1 m2 hm2
          rw [List.mem_singleton] at hm2
          subst hm2
          exact hge c0 hc0 m1 hm1 r (List.mem_cons_self r rs)
        · rw [if_neg hid] at hc
          subst hc
          exact ⟨hne0, hdesc0⟩
      · rw [List.mem_append] at hc
        rcases hc with hc | hc
        · exact hacc c hc
        · rw [List.mem_singleton] at hc
          subst hc
          exact ⟨by simp, List.pairwise_singleton _ _⟩
    · -- leading timestamps stay non-increasing
      unfold addRowToConvs
      split
      · rw [List.pairwise_map]
        apply List.Pairwise.imp_of_mem ?_ hpw
        intro c1 c2 h1 h2 hle
        by_cases hid1 : c1.conversation_id == r.conversation_id
        · by_cases hid2 : c2.conversation_id == r.conversation_id
          · rw [if_pos hid1, if_pos hid2,
              latestTs_append c2 _ (hacc c2 h2).1, latestTs_append c1 _ (hacc c1 h1).1]
            exact hle
          · rw [if_pos hid1, if_neg hid2, latestTs_append c1 _ (hacc c1 h1).1]
            exact hle
        · by_cases hid2 : c2.conversation_id == r.conversation_id
          · rw [if_neg hid1, if_pos hid2, latestTs_append c2 _ (hacc c2 h2).1]
            exact hle
          · rw [if_neg hid1, if_neg hid2]
            exact hle
      · rw [List.pairwise_append]
        refine ⟨hpw, List.pairwise_singleton _ _, ?_⟩
        intro c1 h1 c2 h2
        rw [List.mem_singleton] at h2
        subst h2
        obtain ⟨hne1, hdesc1⟩ := hacc c1 h1
        have hlt : latestTs ⟨r.conversation_id, [⟨r.role, r.message, r.created_at⟩],
            r.created_at⟩ = r.created_at := rfl
        rw [hlt]
        cases hm : c1.messages with
        | nil => exact absurd hm hne1
        | cons a l =>
          have hl : latestTs c1 = a.timestamp := by simp [latestTs, hm]
          rw [hl]
          exact hge c1 h1 a (by rw [hm]; exact List.mem_cons_self a l) r
            (List.mem_cons_self r rs)
    · -- every remaining row is no later than any stored message
      intro c hc m hm r2 hr2
      unfold addRowToConvs at hc
      have hr2r : r2.created_at ≤ r.created_at := hrows.1 r2 hr2
      split at hc
      · rw [List.mem_map] at hc
        obtain ⟨c0, hc0, hc⟩ := hc
        by_cases hid : c0.conversation_id == r.conversation_id
        · rw [if_pos hid] at hc
          subst hc
          simp only at hm
          rw [List.mem_append] at hm
          rcases hm with hm | hm
          · exact hge c0 hc0 m hm r2 (List.mem_cons_of_mem r hr2)
          · rw [List.mem_singleton] at hm
            subst hm
            exact hr2r
        · rw [if_neg hid] at hc
          subst hc
          exact hge c0 hc0 m hm r2 (List.mem_cons_of_mem r hr2)
      · rw [List.mem_append] at hc
        rcases hc with hc | hc
        · exact hge c hc m hm r2 (List.mem_cons_of_mem r hr2)
        · rw [List.mem_singleton] at hc
          subst hc
          rw [List.mem_singleton] at hm
          subst hm
          exact hr2r

/-- C8 counterexample: a single conversation of u1 with its user turn at time
1 and assistant turn at time 2.  get_history returns the turns most recent
first, [2, 1]: within the conversation the turns are in descending, not
ascending, chronological order. -/
theorem claim_C8_counterexample :
    getHistory sampleHistory "u1" 50 0
      = [⟨"conv1", [⟨"assistant", "hi there", 2⟩, ⟨"user", "hello", 1⟩], 2⟩]
    ∧ ¬ (2 ≤ 1) := by
  refine ⟨by decide, by decide⟩

/-- C8 (amended): get_history groups the caller's rows, fetched in descending
created_at order, by conversation: the returned conversations are ordered by
their latest turn's timestamp, most recent first, and within each returned
conversation the turns are in non-increasing (reverse chronological)
timestamp order, the latest turn first, not ascending. -/
theorem claim_C8_amended (db : List ChatRow) (uid : String) (limit offset : Nat) :
    (getHistory db uid limit offset).Pairwise (fun c1 c2 => latestTs c2 ≤ latestTs c1)
    ∧ (∀ c ∈ getHistory db uid limit offset,
        c.messages ≠ []
        ∧ c.messages.Pairwise (fun m1 m2 => m2.timestamp ≤ m1.timestamp)
        ∧ (∀ m ∈ c.messages, m.timestamp ≤ latestTs c)) := by
  have h := foldConvs_invariant (fetchHistoryRows db uid limit offset) []
    (fetchHistoryRows_pairwise db uid limit offset)
    (by intro c hc; exact absurd hc (List.not_mem_nil c))
    List.Pairwise.nil
    (by intro c hc; exact absurd hc (List.not_mem_nil c))
  refine ⟨h.2, ?_⟩
  intro c hc
  obtain ⟨hne, hdesc⟩ := h.1 c hc
  exact ⟨hne, hdesc, mem_latestTs_le c hne hdesc⟩

/-- C8 witness: the amended ordering applied to the conversation returned for
the sample history: its turns are in non-increasing timestamp order. -/
theorem claim_C8_witness :
    (([⟨"assistant", "hi there", 2⟩, ⟨"user", "hello", 1⟩] : List HistMsg)).Pairwise
      (fun m1 m2 => m2.timestamp ≤ m1.timestamp) :=
  ((claim_C8_amended sampleHistory "u1" 50 0).2
    ⟨"conv1", [⟨"assistant", "hi there", 2⟩, ⟨"user", "hello", 1⟩], 2⟩ (by decide)).2.1

/-- C10: the fb8405 search treats an empty document_ids list exactly like no
filter at all, because the Python truthiness test if document_ids: is false
for the empty list: the query then runs over the entire collection, and in
particular returns chunks of documents outside the empty filter, as the
concrete collection holding only another owner's document shows. -/
theorem claim_C10 (coll : List CEntry) (embedQ : List Char → List Int)
    (q : List Char) (limit : Nat) :
    fbSearch coll embedQ q (some []) limit = fbSearch coll embedQ q none limit
    ∧ fbSearch [sampleForeignEntry] (fun _ => [1]) ['q'] (some []) 5
        = [⟨"cf", "dforeign", "nf", ['z'], 1⟩] := by
  exact ⟨rfl, by decide⟩

end AIMaster
